import Mathlib

/-!
Shallow embedding of the TimestampDiff element of this repository
(src/elements/analysis/timestampdiff.cc) and proofs about its ingestion
path, sample store and statistics queries.

Machine integers are modelled as Nat with explicit `% 2 ^ 32` where the
code truncates, doubles as exact rationals (with `Option` capturing the
non-finite results of a division by zero), and the external collaborators
named by the specification (the peer RecordTimestamp lookup, the packet
sequence-number reader, the steady clock) as fields of an observation
record carrying exactly what the element reads from them.
-/

namespace TimestampDiff

/-- One stored sample: the measured delay (a uint32, in the configured
time unit) and the traffic-class tag byte.  Mirrors the element type of
the `_delays` vector written at timestampdiff.cc:276 and 278.  Modelled
from the spec: the struct itself is declared in the header
timestampdiff.hh, which is not under src/; the spec describes a sample as
a (delay, class-tag) pair with an unsigned delay and an 8-bit tag. -/
structure DelayTc where
  delay : Nat
  tc : Nat
  deriving DecidableEq, Repr

/-- Configuration and mutable state of one TimestampDiff element:
the sample vector `_delays`, the atomic next-index counter `_nd`, and the
configuration fields read by the ingestion and query paths
(timestampdiff.cc:42-77).  The OFFSET and network-order options only feed
the external sequence-number reader, whose result the packet observation
below carries directly, so they are not repeated here. -/
structure TSDState where
  delays : List DelayTc
  nd : Nat
  limit : Nat
  maxDelayMs : Nat
  verbose : Bool
  nano : Bool
  sample : Nat
  tcOffset : Int
  tcMask : Nat
  deriving DecidableEq, Repr

/-- What the ingestion path reads from one traffic unit and from the
external collaborators while processing it (timestampdiff.cc:245-247):
the 64-bit sequence number extracted by NumberPacket at the configured
offset, the peer RecordTimestamp lookup result (`none` is the
uninitialized sentinel), the steady-clock instant (nanoseconds), and the
payload bytes used for the optional class-tag read. -/
structure PacketObs where
  seq : Nat
  recorded : Option Nat
  now : Nat
  dataBytes : Nat → Nat

/-- One diagnostic line emitted by the verbose outlier branch
(timestampdiff.cc:263-266): sequence number, observed delay in
milliseconds, configured maximum in milliseconds. -/
structure LogLine where
  seq : Nat
  delayMs : Nat
  maxMs : Nat
  deriving DecidableEq, Repr

/-- The per-unit conversion factor `(_nano ? 1000000 : 1000)` between the
configured MAXDELAY milliseconds and the stored time unit
(timestampdiff.cc:261). -/
def unitFactor (nano : Bool) : Nat := if nano then 1000000 else 1000

/-- The delay of a unit in the configured time unit, as the uint32 value
the code stores (timestampdiff.cc:259-260).  Modelled from the spec: the
timestamp type is an external collaborator kept in nanoseconds here, so
`nsecval` is the difference itself and `usecval` divides by 1000; the
cast to uint32 is the explicit `% 2 ^ 32`. -/
def packetUsec (st : TSDState) (p : PacketObs) (old : Nat) : Nat :=
  (if st.nano then p.now - old else (p.now - old) / 1000) % 2 ^ 32

/-- The class-tag read `p->data()[_tc_offset] & _tc_mask`, taken only when
`_tc_offset >= 0` (timestampdiff.cc:271-274). -/
def readTc (st : TSDState) (p : PacketObs) : Nat :=
  if 0 ≤ st.tcOffset then p.dataBytes st.tcOffset.toNat &&& st.tcMask else 0

/-- Result of one run of the ingestion action: the output port it
returns, the element state afterwards, and the diagnostic lines it
emitted. -/
structure SmOut where
  port : Nat
  state : TSDState
  logs : List LogLine
  deriving Repr

/-- TimestampDiff::smaction (timestampdiff.cc:243-282): the per-unit
ingestion path.  A unit with no recorded timestamp is sent to output
port 1; a unit filtered out by the sampling rate is sent to port 0
unrecorded; a unit whose delay exceeds the configured maximum is sent to
port 0 unrecorded, with a diagnostic line when verbose; otherwise the
next slot index is claimed from the counter and the (delay, tag) sample
is written, by slot assignment in bounded mode and by append in
unbounded mode. -/
def smaction (st : TSDState) (p : PacketObs) : SmOut :=
  match p.recorded with
  | none => ⟨1, st, []⟩
  | some old =>
    if st.sample ≠ 1 ∧ (p.seq % 2 ^ 32) % st.sample ≠ 0 then
      ⟨0, st, []⟩
    else
      let usec := packetUsec st p old
      if st.maxDelayMs * unitFactor st.nano < usec then
        ⟨0, st,
          if st.verbose then [⟨p.seq, usec / unitFactor st.nano, st.maxDelayMs⟩] else []⟩
      else
        let nextIndex := st.nd
        let tc := readTc st p
        let newDelays :=
          if st.limit ≠ 0 then st.delays.set nextIndex ⟨usec, tc⟩
          else st.delays ++ [⟨usec, tc⟩]
        ⟨0, { st with nd := st.nd + 1, delays := newDelays }, []⟩

/-- Result of a push: the unit actually forwarded, the output port it is
forwarded on, and the state and logs after the ingestion action. -/
structure PushOut where
  forwarded : PacketObs
  port : Nat
  state : TSDState
  logs : List LogLine

/-- TimestampDiff::push (timestampdiff.cc:284-288): runs the ingestion
action and forwards the very same unit on the returned output port. -/
def push (st : TSDState) (p : PacketObs) : PushOut :=
  let o := smaction st p
  ⟨p, o.port, o.state, o.logs⟩

/-- The samples the read side sees: indices [0, `_nd`) of the vector.
Every query loop runs `i` from 0 (or `begin`) to `_nd.value()`. -/
def storeView (st : TSDState) : List DelayTc := st.delays.take st.nd

/-- The subrange [begin, `_nd`) scanned by the range-scoped queries. -/
def slice (st : TSDState) (b : Nat) : List DelayTc := (st.delays.take st.nd).drop b

/-- The value of UINT_MAX, the sentinel the min accumulator starts at
(timestampdiff.cc:116). -/
def UINT_MAX : Nat := 4294967295

/-- The samples the min_mean_max loop actually considers: those of
[begin, `_nd`) that survive the class filter
`if (tc > -1 && _delays[i].tc != tc) continue` (timestampdiff.cc:311). -/
def considered (st : TSDState) (b : Nat) (tc : Int) : List DelayTc :=
  (slice st b).filter (fun s => if -1 < tc ∧ (s.tc : Int) ≠ tc then false else true)

/-- Result of TimestampDiff::min_mean_max.  The mean is an `Option ℚ`:
`none` models the non-finite double produced when the code divides by a
zero count, `some q` a finite value. -/
structure MMMOut where
  min : Nat
  mean : Option ℚ
  max : Nat
  deriving DecidableEq, Repr

/-- TimestampDiff::min_mean_max (timestampdiff.cc:303-335): one linear
scan over [begin, `_nd`) with the optional class filter, accumulating
sum, count, running min (from the UINT_MAX sentinel) and running max
(from 0); then the min sentinel collapses to 0, the mean is forced to 0
when the total vector length is 0, and otherwise the mean is
`sum / n` for the considered count `n` — which is the non-finite
`0.0 / 0.0` when the length is positive but no sample was considered. -/
def min_mean_max (st : TSDState) (b : Nat) (tc : Int) : MMMOut :=
  let cs := considered st b tc
  let sum : ℚ := (cs.map (fun s => (s.delay : ℚ))).sum
  let n := cs.length
  let mn := cs.foldl (fun m s => if s.delay < m then s.delay else m) UINT_MAX
  let mx := cs.foldl (fun m s => if m < s.delay then s.delay else m) 0
  let mnFixed := if mn = UINT_MAX then 0 else mn
  let mean : Option ℚ :=
    if st.nd = 0 then some 0 else if n = 0 then none else some (sum / (n : ℚ))
  ⟨mnFixed, mean, mx⟩

/-- Radicand of TimestampDiff::standard_deviation
(timestampdiff.cc:337-353): the code accumulates
`var = sum over [begin, length) of (delay - mean) squared`, returns 0
directly when `var` is 0, and otherwise returns the square root of
`var / length`.  The real square root is strictly monotone and injective
on nonnegative arguments, so every claim about the returned value is
settled by this radicand (which is 0 exactly when the returned value
is 0). -/
def standard_deviation_sq (st : TSDState) (mean : ℚ) (b : Nat) : ℚ :=
  let var := ((slice st b).map (fun s => ((s.delay : ℚ) - mean) ^ 2)).sum
  if var = 0 then 0 else var / (st.nd : ℚ)

/-- The stddev read handler (timestampdiff.cc:116-149 and 164-165): the
local `mean` is initialised to 0.0; an optional begin index is parsed
from the argument and causes an early 0 result when it is at or beyond
the current length; otherwise `standard_deviation(mean)` is called with
`mean` still 0.0 and with the begin parameter left at its default.
Modelled from the spec: the default value of the begin parameter is
declared in the missing header timestampdiff.hh; the spec gives 0 as the
default begin of every range operation.  The result is tracked at the
radicand level, matching standard_deviation_sq. -/
def stddevQuery (st : TSDState) (arg : Option Nat) : ℚ :=
  match arg with
  | some b => if st.nd ≤ b then 0 else standard_deviation_sq st 0 0
  | none => standard_deviation_sq st 0 0

/-- Spec-side definition, following the words of the claim for the
stddev query: the population standard deviation of the delays of
[begin, length) about the freshly recomputed mean of that same range,
with the claimed denominator `length`; tracked at the radicand level,
i.e. `sum over the range of (x - mean) squared, divided by length`. -/
def stddevSpec_sq (st : TSDState) (b : Nat) : ℚ :=
  let xs := (slice st b).map (fun s => (s.delay : ℚ))
  let mean := xs.sum / (xs.length : ℚ)
  (xs.map (fun x => (x - mean) ^ 2)).sum / (st.nd : ℚ)

/-- Modelled from the spec: the comparator on stored samples (the
`operator<` of the element type, declared in the missing header
timestampdiff.hh) orders samples by their delay field; std::min_element,
std::max_element and std::nth_element compare with it. -/
def delayLe (a b : DelayTc) : Prop := a.delay ≤ b.delay

instance : DecidableRel delayLe := fun a b => Nat.decLe a.delay b.delay

/-- std::min_element over the scanned range: for a nonempty list, the
first element that no later element strictly precedes. -/
def min_element : List DelayTc → Option DelayTc
  | [] => none
  | x :: xs => some (xs.foldl (fun m y => if y.delay < m.delay then y else m) x)

/-- std::max_element over the scanned range: for a nonempty list, the
first element that no later element strictly exceeds. -/
def max_element : List DelayTc → Option DelayTc
  | [] => none
  | x :: xs => some (xs.foldl (fun m y => if m.delay < y.delay then y else m) x)

/-- Modelled from the spec: std::nth_element (external standard library)
places at the target position the element a full ascending sort would
put there and permutes the rest of the subrange arbitrarily; we model it
by the conforming behaviour that sorts the whole subrange ascending by
delay. -/
def nth_element_model (l : List DelayTc) : List DelayTc :=
  List.insertionSort delayLe l

/-- Result of a percentile call: the returned value and the element
state after the call (the selection may permute the scanned subrange in
place). -/
structure PercOut where
  value : ℚ
  state : TSDState
  deriving DecidableEq, Repr

/-- TimestampDiff::percentile (timestampdiff.cc:355-383): returns 0 on an
empty or exhausted range; computes the target index
`idx = floor(percent * (length - begin) / 100) + begin` (a double
computation truncated by the size_t cast; exact over ℚ for a nonnegative
percent); answers with the minimum of the range when `idx <= begin`, the
maximum when `idx >= length`, and otherwise with the element
std::nth_element places at position idx, reordering [begin, length) in
place. -/
def percentile (st : TSDState) (percent : ℚ) (b : Nat) : PercOut :=
  let len := st.nd
  if len = 0 ∨ len ≤ b then ⟨0, st⟩
  else
    let idx := (⌊percent * ((len - b : Nat) : ℚ) / 100⌋).toNat + b
    if idx ≤ b then
      ⟨(((min_element (slice st b)).map (fun s => (s.delay : ℚ))).getD 0), st⟩
    else if len ≤ idx then
      ⟨(((max_element (slice st b)).map (fun s => (s.delay : ℚ))).getD 0), st⟩
    else
      let sorted := nth_element_model (slice st b)
      ⟨(((sorted.get? (idx - b)).map (fun s => (s.delay : ℚ))).getD 0),
        { st with delays := st.delays.take b ++ sorted ++ st.delays.drop len }⟩

/-- Decimal digit character, code 48 + d for a digit d < 10. -/
def digitChar10 (d : Nat) : Char := Char.ofNat (48 + d)

/-- Modelled from the spec: decimal rendering of an unsigned value by the
String conversion used in the dump loop (external Click string library);
most significant digit first, zero rendered as the single digit 0. -/
def renderNat (n : Nat) : List Char :=
  if n = 0 then [digitChar10 0] else ((Nat.digits 10 n).reverse).map digitChar10

/-- Numeric value of a decimal digit character. -/
def charVal (c : Char) : Nat := c.toNat - 48

/-- Recognises a decimal digit character. -/
def isDigit10 (c : Char) : Bool := 48 ≤ c.toNat && c.toNat ≤ 57

/-- Parsing one dump_list line back as a decimal number: defined for a
nonempty all-digit line, most significant digit first. -/
def parseNatLine (l : List Char) : Option Nat :=
  if l ≠ [] ∧ l.all isDigit10 then
    some (Nat.ofDigits 10 ((l.map charVal).reverse))
  else none

/-- The dump_list handler loop (timestampdiff.cc:198-207, else branch):
one line per sample of [0, `_nd`), carrying the bare delay value. -/
def dump_list_lines (st : TSDState) : List (List Char) :=
  (storeView st).map (fun s => renderNat s.delay)

/-- The dump handler loop (timestampdiff.cc:198-207, then branch): one
line per sample of [0, `_nd`), the index, a colon and a space, then the
delay value. -/
def dump_lines (st : TSDState) : List (List Char) :=
  (storeView st).enum.map (fun q => renderNat q.1 ++ [':', ' '] ++ renderNat q.2.delay)

/-- The atomic fetch-and-add of 1 on the next-index counter
(timestampdiff.cc:270): returns the claimed slot and the new counter. -/
def fetch_and_add (c : Nat) : Nat × Nat := (c, c + 1)

/-- Execution of concurrent ingestion claims in a given linearization
order: the atomicity of the counter means every interleaving is some
sequence of whole fetch_and_add steps, one per operation; each operation
is paired with the slot index its step returned. -/
def runClaims {α : Type} : List α → Nat → List (α × Nat)
  | [], _ => []
  | o :: os, c =>
    let r := fetch_and_add c
    (o, r.1) :: runClaims os r.2

/-! Concrete element states and packet observations used to instantiate
the theorems below. -/

/-- An element in its default configuration (timestampdiff.cc:42-46):
unbounded store, MAXDELAY 1000 ms, microseconds, SAMPLE 1, no class
tag. -/
def stDefault : TSDState := ⟨[], 0, 0, 1000, false, false, 1, -1, 255⟩

/-- A unit whose sequence number has no recorded timestamp in the peer
service: the lookup returns the uninitialized sentinel. -/
def pUninit : PacketObs := ⟨0, none, 0, fun _ => 0⟩

/-- A unit with a recorded timestamp and a 5 ms delay. -/
def pMeasured : PacketObs := ⟨0, some 0, 5000000, fun _ => 0⟩

/-- A default-configured element with verbose logging on. -/
def stVerbose : TSDState := ⟨[], 0, 0, 1000, true, false, 1, -1, 255⟩

/-- A unit with a recorded timestamp and a 2000 ms delay, above the
default 1000 ms maximum. -/
def pLate : PacketObs := ⟨7, some 0, 2000000000, fun _ => 0⟩

/-- A bounded element of capacity 1 with sampling rate 3. -/
def stSample3 : TSDState := ⟨[⟨0, 0⟩], 0, 1, 1000, false, false, 3, -1, 255⟩

/-- A unit whose 64-bit sequence number is 2 to the power 32 — not a
multiple of 3, though its low 32 bits (zero) are — with a recorded
timestamp and a 5 microsecond delay. -/
def pBigSeq : PacketObs := ⟨2 ^ 32, some 0, 5000, fun _ => 0⟩

/-- A unit with sequence number 1 and a recorded timestamp. -/
def pSeq1 : PacketObs := ⟨1, some 0, 5000, fun _ => 0⟩

/-- A bounded element of capacity 2 with sampling rate 3. -/
def stSample3b : TSDState := ⟨[⟨0, 0⟩, ⟨0, 0⟩], 0, 2, 1000, false, false, 3, -1, 255⟩

/-- A unit whose sequence number is 2 to the power 32 plus 6: not a
multiple of 3, though its low 32 bits (6) are. -/
def pBigSeq6 : PacketObs := ⟨2 ^ 32 + 6, some 0, 5000, fun _ => 0⟩

/-- A store holding one sample with class tag 2. -/
def stTcMiss : TSDState := ⟨[⟨10, 2⟩], 1, 1, 1000, false, false, 1, -1, 255⟩

/-- A store holding the delays 0 and 2. -/
def stStd : TSDState := ⟨[⟨0, 0⟩, ⟨2, 0⟩], 2, 2, 1000, false, false, 1, -1, 255⟩

/-- A store holding the delays 10, 30, 20. -/
def exSt3 : TSDState := ⟨[⟨10, 0⟩, ⟨30, 0⟩, ⟨20, 0⟩], 3, 3, 1000, false, false, 1, -1, 255⟩

/-- A store holding the delays 9, 7, 5. -/
def exStF : TSDState := ⟨[⟨9, 0⟩, ⟨7, 0⟩, ⟨5, 0⟩], 3, 3, 1000, false, false, 1, -1, 255⟩

/-! Helper lemmas about the fold-based selection primitives, the sort
model, the counter run and the decimal rendering. -/

theorem minFold_spec (xs : List DelayTc) (x : DelayTc) :
    xs.foldl (fun m y => if y.delay < m.delay then y else m) x ∈ x :: xs ∧
    (xs.foldl (fun m y => if y.delay < m.delay then y else m) x).delay ≤ x.delay ∧
    ∀ s ∈ xs, (xs.foldl (fun m y => if y.delay < m.delay then y else m) x).delay ≤ s.delay := by
  induction xs generalizing x with
  | nil => simp
  | cons y ys ih =>
    have h := ih (if y.delay < x.delay then y else x)
    obtain ⟨hmem, hle, hall⟩ := h
    refine ⟨?_, ?_, ?_⟩
    · simp only [List.foldl_cons]
      rcases List.mem_cons.mp hmem with h1 | h1
    --  the accumulator after one step is x or y
      · by_cases hxy : y.delay < x.delay
        · simp only [hxy, if_pos] at h1
          simp [List.foldl_cons, hxy, h1]
        · simp only [hxy, if_neg, if_false] at h1
          simp [List.foldl_cons, hxy, h1]
      · simp [List.foldl_cons, List.mem_cons]
        right; right; exact h1
    · simp only [List.foldl_cons]
      refine le_trans hle ?_
      split <;> omega
    · intro s hs
      rcases List.mem_cons.mp hs with h1 | h1
      · subst h1
        simp only [List.foldl_cons]
        refine le_trans hle ?_
        split <;> omega
      · simpa [List.foldl_cons] using hall s h1

theorem maxFold_spec (xs : List DelayTc) (x : DelayTc) :
    xs.foldl (fun m y => if m.delay < y.delay then y else m) x ∈ x :: xs ∧
    x.delay ≤ (xs.foldl (fun m y => if m.delay < y.delay then y else m) x).delay ∧
    ∀ s ∈ xs, s.delay ≤ (xs.foldl (fun m y => if m.delay < y.delay then y else m) x).delay := by
  induction xs generalizing x with
  | nil => simp
  | cons y ys ih =>
    have h := ih (if x.delay < y.delay then y else x)
    obtain ⟨hmem, hle, hall⟩ := h
    refine ⟨?_, ?_, ?_⟩
    · simp only [List.foldl_cons]
      rcases List.mem_cons.mp hmem with h1 | h1
      · by_cases hxy : x.delay < y.delay
        · simp only [hxy, if_pos] at h1
          simp [List.foldl_cons, hxy, h1]
        · simp only [hxy, if_neg, if_false] at h1
          simp [List.foldl_cons, hxy, h1]
      · simp [List.foldl_cons, List.mem_cons]
        right; right; exact h1
    · simp only [List.foldl_cons]
      refine le_trans ?_ hle
      split <;> omega
    · intro s hs
      rcases List.mem_cons.mp hs with h1 | h1
      · subst h1
        simp only [List.foldl_cons]
        refine le_trans ?_ hle
        split <;> omega
      · simpa [List.foldl_cons] using hall s h1

theorem min_element_spec (l : List DelayTc) (m : DelayTc)
    (h : min_element l = some m) : m ∈ l ∧ ∀ s ∈ l, m.delay ≤ s.delay := by
  cases l with
  | nil => simp [min_element] at h
  | cons x xs =>
    simp only [min_element, Option.some.injEq] at h
    obtain ⟨hmem, hle, hall⟩ := minFold_spec xs x
    subst h
    exact ⟨hmem, by
      intro s hs
      rcases List.mem_cons.mp hs with h1 | h1
      · subst h1; exact hle
      · exact hall s h1⟩

theorem max_element_spec (l : List DelayTc) (m : DelayTc)
    (h : max_element l = some m) : m ∈ l ∧ ∀ s ∈ l, s.delay ≤ m.delay := by
  cases l with
  | nil => simp [max_element] at h
  | cons x xs =>
    simp only [max_element, Option.some.injEq] at h
    obtain ⟨hmem, hle, hall⟩ := maxFold_spec xs x
    subst h
    exact ⟨hmem, by
      intro s hs
      rcases List.mem_cons.mp hs with h1 | h1
      · subst h1; exact hle
      · exact hall s h1⟩

theorem slice_length (st : TSDState) (b : Nat) (hwf : st.nd ≤ st.delays.length) :
    (slice st b).length = st.nd - b := by
  simp only [slice, List.length_drop, List.length_take]
  omega

theorem map_delay_orderedInsert (a : DelayTc) (l : List DelayTc) :
    (List.orderedInsert delayLe a l).map (fun s => s.delay) =
      List.orderedInsert (fun x y => x ≤ y) a.delay (l.map (fun s => s.delay)) := by
  induction l with
  | nil => simp [List.orderedInsert]
  | cons b t ih =>
    by_cases h : a.delay ≤ b.delay
    · simp [List.orderedInsert, delayLe, h]
    · simp [List.orderedInsert, delayLe, h, ih]

theorem map_delay_insertionSort (l : List DelayTc) :
    (List.insertionSort delayLe l).map (fun s => s.delay) =
      List.insertionSort (fun x y => x ≤ y) (l.map (fun s => s.delay)) := by
  induction l with
  | nil => simp
  | cons a t ih =>
    simp only [List.insertionSort, List.map_cons]
    rw [map_delay_orderedInsert, ih]

theorem runClaims_map_snd {α : Type} (os : List α) (c : Nat) :
    (runClaims os c).map Prod.snd = List.range' c os.length := by
  induction os generalizing c with
  | nil => simp [runClaims]
  | cons o os ih => simp [runClaims, fetch_and_add, ih, List.range']

theorem runClaims_map_fst {α : Type} (os : List α) (c : Nat) :
    (runClaims os c).map Prod.fst = os := by
  induction os generalizing c with
  | nil => simp [runClaims]
  | cons o os ih => simp [runClaims, fetch_and_add, ih]

theorem digit_render_ok :
    ∀ d, d < 10 → isDigit10 (digitChar10 d) = true ∧ charVal (digitChar10 d) = d := by
  decide

theorem parse_renderNat (n : Nat) : parseNatLine (renderNat n) = some n := by
  by_cases h0 : n = 0
  · subst h0; decide
  · have hne : Nat.digits 10 n ≠ [] := Nat.digits_ne_nil_iff_ne_zero.mpr h0
    have hlt : ∀ d ∈ Nat.digits 10 n, d < 10 := fun d hd =>
      Nat.digits_lt_base (by norm_num) hd
    have hrw : renderNat n = ((Nat.digits 10 n).reverse).map digitChar10 := by
      simp [renderNat, h0]
    have hnil : renderNat n ≠ [] := by
      rw [hrw]
      simp only [ne_eq, List.map_eq_nil_iff, List.reverse_eq_nil_iff]
      exact hne
    have hall : (renderNat n).all isDigit10 = true := by
      rw [hrw, List.all_eq_true]
      intro c hc
      rw [List.mem_map] at hc
      obtain ⟨d, hd, hcd⟩ := hc
      rw [List.mem_reverse] at hd
      rw [← hcd]
      exact (digit_render_ok d (hlt d hd)).1
    have hmap : (renderNat n).map charVal = (Nat.digits 10 n).reverse := by
      rw [hrw, List.map_map]
      have : ∀ d ∈ (Nat.digits 10 n).reverse, (charVal ∘ digitChar10) d = id d := by
        intro d hd
        rw [List.mem_reverse] at hd
        exact (digit_render_ok d (hlt d hd)).2
      rw [List.map_congr_left this, List.map_id]
    rw [parseNatLine, if_pos ⟨hnil, hall⟩, hmap, List.reverse_reverse,
      Nat.ofDigits_digits]

/-! Claim theorems. -/

/-- Claim C3: a unit whose computed delay exceeds the configured maximum
(MAXDELAY milliseconds converted to the configured time unit) leaves the
element state — the store and the next-index counter — unchanged, so the
delay never appears in any subsequent statistic, all of which are
functions of the state; it is forwarded on port 0; a diagnostic line is
emitted only when verbose logging is enabled, and exactly the line
naming the sequence number, the delay in milliseconds and the maximum is
emitted when it is (and sampling does not skip the unit first). -/
theorem maxdelay_discard (st : TSDState) (p : PacketObs) (old : Nat)
    (hrec : p.recorded = some old)
    (hbig : st.maxDelayMs * unitFactor st.nano < packetUsec st p old) :
    (smaction st p).state = st ∧ (smaction st p).port = 0 ∧
    ((smaction st p).logs ≠ [] → st.verbose = true) ∧
    ((st.sample = 1 ∨ (p.seq % 2 ^ 32) % st.sample = 0) → st.verbose = true →
      (smaction st p).logs =
        [⟨p.seq, packetUsec st p old / unitFactor st.nano, st.maxDelayMs⟩]) := by
  simp only [smaction, hrec]
  by_cases h1 : st.sample ≠ 1 ∧ p.seq % 2 ^ 32 % st.sample ≠ 0
  · rw [if_pos h1]
    refine ⟨rfl, rfl, by simp, ?_⟩
    intro hor _
    rcases hor with h | h
    · exact absurd h h1.1
    · exact absurd h h1.2
  · rw [if_neg h1, if_pos hbig]
    refine ⟨rfl, rfl, ?_, ?_⟩
    · intro hlog
      by_cases hv : st.verbose
      · exact hv
      · simp [hv] at hlog
    · intro _ hv
      simp [hv]

/-- Claim C3 witness: a 2000 ms delay against the default 1000 ms
maximum, with verbose logging on, leaves the state unchanged and emits
the one diagnostic line. -/
theorem maxdelay_discard_witness :
    (smaction stVerbose pLate).state = stVerbose ∧
    (smaction stVerbose pLate).logs = [⟨7, 2000, 1000⟩] := by
  have h := maxdelay_discard stVerbose pLate 0 rfl (by decide)
  exact ⟨h.1, h.2.2.2 (Or.inl rfl) rfl⟩

/-- Claim C4 counterexample: the claim says every ingested unit is
forwarded to the normal output (port 0) regardless of measurement
outcome, in particular a unit whose lookup returns the uninitialized
sentinel; but for such a unit the ingestion action returns port 1
(timestampdiff.cc:249-251), a separate output, not the normal one. -/
theorem push_normal_output_counterexample :
    (push stDefault pUninit).port = 1 ∧ (push stDefault pUninit).port ≠ 0 := by
  exact ⟨rfl, by decide⟩

/-- Claim C4 amended: the unit itself is always forwarded unchanged —
the push path forwards the very unit it received and never mutates it —
but the output port depends on the lookup: a unit with a recorded
timestamp (measured, sampling-skipped or threshold-discarded) goes to
the normal output 0, while a unit whose sequence number has no recorded
timestamp goes unmeasured to output 1, with no sample appended and no
log emitted. -/
theorem push_routing (st : TSDState) (p : PacketObs) :
    (push st p).forwarded = p ∧
    (p.recorded = none →
      (push st p).port = 1 ∧ (push st p).state = st ∧ (push st p).logs = []) ∧
    (∀ old, p.recorded = some old → (push st p).port = 0) := by
  refine ⟨rfl, ?_, ?_⟩
  · intro hrec
    simp [push, smaction, hrec]
  · intro old hrec
    simp only [push, smaction, hrec]
    split_ifs <;> rfl

/-- Claim C4 amended witness: a measured unit goes to the normal
output 0 and is forwarded unchanged. -/
theorem push_routing_witness :
    (push stDefault pMeasured).port = 0 ∧
    (push stDefault pMeasured).forwarded = pMeasured := by
  have h := push_routing stDefault pMeasured
  exact ⟨h.2.2 0 rfl, h.1⟩

/-- Claim C5 counterexample: the claim says only units whose 64-bit
sequence number is a multiple of the configured rate ever produce a
stored sample; but the code tests the sequence number truncated to 32
bits (timestampdiff.cc:254), so the unit with sequence number 2 to the
power 32 — not a multiple of the rate 3 — is recorded: the counter
advances and its sample is written. -/
theorem sampling_64bit_counterexample :
    ¬ (3 ∣ pBigSeq.seq) ∧ stSample3.sample = 3 ∧
    (smaction stSample3 pBigSeq).state.nd = stSample3.nd + 1 ∧
    (smaction stSample3 pBigSeq).state.delays = [⟨5, 0⟩] := by
  exact ⟨by decide, rfl, by decide, by decide⟩

/-- Claim C5 amended: with a sampling rate k other than 1 configured,
the multiple-of-k test is applied to the sequence number reduced modulo
2 to the power 32: a unit with a recorded timestamp whose reduced
sequence number is not a multiple of k is never recorded — the state,
including the store and the next-index counter, is unchanged and no
diagnostic is emitted. -/
theorem sampling_truncated (st : TSDState) (p : PacketObs) (old : Nat)
    (hrec : p.recorded = some old) (hk : st.sample ≠ 1)
    (hm : (p.seq % 2 ^ 32) % st.sample ≠ 0) :
    (smaction st p).state = st ∧ (smaction st p).port = 0 ∧
    (smaction st p).logs = [] := by
  simp only [smaction, hrec]
  rw [if_pos ⟨hk, hm⟩]
  exact ⟨rfl, rfl, rfl⟩

/-- Claim C5 amended witness: with rate 3, the unit with sequence
number 1 is skipped and the state is unchanged. -/
theorem sampling_truncated_witness :
    (smaction stSample3 pSeq1).state = stSample3 := by
  exact (sampling_truncated stSample3 pSeq1 0 rfl (by decide) (by decide)).1

/-- Claim C10: with a sampling rate other than 1, for a unit with a
recorded timestamp whose delay is within the configured maximum, a
sample is stored (the counter advances) exactly when the 64-bit sequence
number truncated to 32 bits is a multiple of the rate; hence a unit
whose sequence number is at least 2 to the power 32 is recorded whenever
its low 32 bits are a multiple of the rate, even when the full sequence
number is not. -/
theorem sampling_mod32 (st : TSDState) (p : PacketObs) (old : Nat)
    (hrec : p.recorded = some old) (hk : st.sample ≠ 1)
    (hok : packetUsec st p old ≤ st.maxDelayMs * unitFactor st.nano) :
    ((smaction st p).state.nd = st.nd + 1 ↔ (p.seq % 2 ^ 32) % st.sample = 0) := by
  simp only [smaction, hrec]
  by_cases hm : (p.seq % 2 ^ 32) % st.sample = 0
  · rw [if_neg (by exact fun h => h.2 hm)]
    rw [if_neg (Nat.not_lt.mpr hok)]
    exact iff_of_true rfl hm
  · rw [if_pos ⟨hk, hm⟩]
    exact iff_of_false (Nat.ne_of_lt (Nat.lt_succ_self st.nd)) hm

/-- Claim C10 witness: with rate 3, the unit with sequence number
2 to the power 32 plus 6 — whose low 32 bits are 6, a multiple of 3,
though the full number is not a multiple of 3 — is recorded. -/
theorem sampling_mod32_witness :
    (smaction stSample3b pBigSeq6).state.nd = stSample3b.nd + 1 ∧
    ¬ (3 ∣ pBigSeq6.seq) := by
  refine ⟨?_, by decide⟩
  exact (sampling_mod32 stSample3b pBigSeq6 0 rfl (by decide) (by decide)).mpr (by decide)

/-- Claim C6: evaluation at the failing input.  The claim says that when
the considered range is empty the operation reports mean 0 (with min
collapsed to 0 and max 0); the guard in the code checks the total vector
length instead of the considered count, so on a store of length 1 whose
only sample has class tag 2, a query with class filter 1 considers no
sample and computes mean as the non-finite double 0.0 / 0.0 (modelled
`none`), not 0 — while min and max do report 0. -/
theorem min_mean_max_nan_at_failing_input :
    min_mean_max stTcMiss 0 1 = ⟨0, none, 0⟩ ∧ 0 < stTcMiss.nd ∧
    considered stTcMiss 0 1 = [] := by
  exact ⟨by decide, by decide, by decide⟩

/-- Claim C7: the atomic fetch-and-increment counter linearizes
concurrent ingestion claims: whatever the linearization order of the N
operations, starting from an empty store the claimed slot indices are
exactly 0 .. N-1 in claim order — pairwise distinct, covering [0, N)
with no duplicate and no gap — and any two claim records with the same
slot index are the same record, so no two writes collide. -/
theorem concurrent_claims_cover {α : Type} (ops : List α) :
    ((runClaims ops 0).map Prod.snd = List.range ops.length) ∧
    ((runClaims ops 0).map Prod.snd).Nodup ∧
    (∀ k, k ∈ (runClaims ops 0).map Prod.snd ↔ k < ops.length) ∧
    (∀ a ∈ runClaims ops 0, ∀ b ∈ runClaims ops 0, a.2 = b.2 → a = b) := by
  have h : (runClaims ops 0).map Prod.snd = List.range ops.length := by
    rw [runClaims_map_snd, List.range_eq_range']
  have hn : ((runClaims ops 0).map Prod.snd).Nodup := by
    rw [h]; exact List.nodup_range _
  refine ⟨h, hn, ?_, ?_⟩
  · intro k; rw [h]; exact List.mem_range
  · intro a ha b hb hab
    exact List.inj_on_of_nodup_map hn ha hb hab

/-- Claim C2 counterexample: the claim says the stddev query returns the
population standard deviation of [begin, length) about the freshly
recomputed mean of that range; on the store [0, 2] with begin 1 the
claimed value is 0 (the one considered delay equals its mean), but the
query computes with the never-recomputed initial mean 0.0 and ignores
the parsed begin, returning the square root of 2 — the values are the
square roots of the two radicands below, which differ, and the square
root is injective on nonnegatives. -/
theorem stddev_counterexample :
    stddevQuery stStd (some 1) = 2 ∧ stddevSpec_sq stStd 1 = 0 ∧
    stddevQuery stStd (some 1) ≠ stddevSpec_sq stStd 1 := by
  have h1 : stddevQuery stStd (some 1) = 2 := by
    norm_num [stddevQuery, standard_deviation_sq, stStd, slice, storeView]
  have h2 : stddevSpec_sq stStd 1 = 0 := by
    norm_num [stddevSpec_sq, stStd, slice]
  refine ⟨h1, h2, ?_⟩
  rw [h1, h2]
  norm_num

/-- Claim C2 amended: for an in-range begin argument, the stddev query
returns the square root of `sum of the squared delays of the whole
range [0, length), divided by length` (0 directly when that sum is 0):
the mean it uses is the initial 0.0 of the handler, never recomputed,
and the parsed begin index is used only for the early out-of-range
check and is not passed to the computation.  Stated at the radicand
level. -/
theorem stddev_query_amended (st : TSDState) (b : Nat) (hb : b < st.nd) :
    stddevQuery st (some b) =
      (if ((storeView st).map (fun s => ((s.delay : ℚ)) ^ 2)).sum = 0 then 0
       else ((storeView st).map (fun s => ((s.delay : ℚ)) ^ 2)).sum / (st.nd : ℚ)) := by
  simp [stddevQuery, Nat.not_le.mpr hb, standard_deviation_sq, slice, storeView]

/-- Claim C2 amended witness: on the store [0, 2] with begin 1 the
query radicand is 2 (so the returned value is the square root of 2). -/
theorem stddev_query_amended_witness : stddevQuery stStd (some 1) = 4 / 2 := by
  rw [stddev_query_amended stStd 1 (by decide)]
  norm_num [storeView, stStd]

/-- Claim C9: the dump_list query produces exactly one line per sample
over [0, length), each line the bare delay value, so parsing each line
back as a decimal number reproduces the stored delays in index order;
the dump query produces the same sequence of lines, each prefixed with
its index, a colon and a space. -/
theorem dump_roundtrip (st : TSDState) (hwf : st.nd ≤ st.delays.length) :
    ((dump_list_lines st).length = st.nd) ∧
    ((dump_list_lines st).map parseNatLine =
      (storeView st).map (fun s => some s.delay)) ∧
    (dump_lines st = (dump_list_lines st).enum.map
      (fun q => renderNat q.1 ++ [':', ' '] ++ q.2)) := by
  refine ⟨?_, ?_, ?_⟩
  · simp only [dump_list_lines, List.length_map, storeView, List.length_take]
    omega
  · rw [dump_list_lines, List.map_map]
    apply List.map_congr_left
    intro s _
    simp only [Function.comp_apply, parse_renderNat]
  · rw [dump_lines, dump_list_lines, List.enum_map, List.map_map]
    apply List.map_congr_left
    intro q _
    simp [Prod.map]

/-- Claim C9 witness: on the store [10, 30, 20] the three dump_list
lines parse back to the delays in index order. -/
theorem dump_roundtrip_witness :
    (dump_list_lines exSt3).map parseNatLine = [some 10, some 30, some 20] ∧
    (dump_list_lines exSt3).length = 3 := by
  have h := dump_roundtrip exSt3 (by decide)
  refine ⟨?_, h.1⟩
  rw [h.2.1]
  rfl

/-- Claim C8: a percentile call leaves the next-index counter unchanged,
leaves every sample at an index outside [begin, length) unchanged, and
preserves the multiset of samples stored within [begin, length): the
selection only permutes positions, never changes membership. -/
theorem percentile_frame (st : TSDState) (pc : ℚ) (b : Nat)
    (hwf : st.nd ≤ st.delays.length) :
    ((percentile st pc b).state.nd = st.nd) ∧
    (∀ i, i < b ∨ st.nd ≤ i →
      (percentile st pc b).state.delays.get? i = st.delays.get? i) ∧
    ((((percentile st pc b).state.delays.take st.nd).drop b : Multiset DelayTc) =
      (((st.delays.take st.nd).drop b : List DelayTc) : Multiset DelayTc)) := by
  have hstate : (percentile st pc b).state = st ∨
      (b < st.nd ∧ (percentile st pc b).state =
        { st with delays :=
            st.delays.take b ++ nth_element_model (slice st b) ++ st.delays.drop st.nd }) := by
    simp only [percentile]
    split_ifs with h1 h2 h3
    · exact Or.inl rfl
    · exact Or.inl rfl
    · exact Or.inl rfl
    · exact Or.inr ⟨by omega, rfl⟩
  rcases hstate with h | ⟨hb, h⟩
  · rw [h]
    exact ⟨rfl, fun i _ => rfl, rfl⟩
  · have hTlen : (st.delays.take b).length = b := by
      simp only [List.length_take]
      omega
    have hSlen : (nth_element_model (slice st b)).length = st.nd - b := by
      rw [nth_element_model, List.length_insertionSort, slice_length st b hwf]
    have hTS : (st.delays.take b ++ nth_element_model (slice st b)).length = st.nd := by
      simp only [List.length_append, hTlen, hSlen]
      omega
    refine ⟨by rw [h], ?_, ?_⟩
    · intro i hi
      rw [h]
      rcases hi with hi | hi
      · rw [List.append_assoc,
          List.get?_append (by rw [hTlen]; exact hi),
          List.get?_take hi]
      · rw [List.get?_append_right (by rw [hTS]; exact hi),
          List.get?_drop, hTS]
        congr 1
        omega
    · rw [h]
      have htake : ((st.delays.take b ++ nth_element_model (slice st b) ++
          st.delays.drop st.nd).take st.nd) =
          st.delays.take b ++ nth_element_model (slice st b) := by
        have h2 := List.take_left
          (st.delays.take b ++ nth_element_model (slice st b)) (st.delays.drop st.nd)
        rwa [hTS] at h2
      have hdrop : ((st.delays.take b ++ nth_element_model (slice st b)).drop b) =
          nth_element_model (slice st b) := by
        have h4 := List.drop_left (st.delays.take b) (nth_element_model (slice st b))
        rwa [hTlen] at h4
      show ((((st.delays.take b ++ nth_element_model (slice st b) ++
          st.delays.drop st.nd).take st.nd).drop b : List DelayTc) : Multiset DelayTc) = _
      rw [htake, hdrop]
      exact Multiset.coe_eq_coe.mpr (List.perm_insertionSort delayLe (slice st b))

/-- Claim C8 witness: on the store [9, 7, 5], the median query over
begin 1 permutes only the subrange [1, 3): index 0 is unchanged, the
counter is unchanged, and the subrange keeps its multiset. -/
theorem percentile_frame_witness :
    (percentile exStF 50 1).state.nd = 3 ∧
    (percentile exStF 50 1).state.delays.get? 0 = some ⟨9, 0⟩ ∧
    ((((percentile exStF 50 1).state.delays.take 3).drop 1 : List DelayTc) :
        Multiset DelayTc) =
      (((exStF.delays.take 3).drop 1 : List DelayTc) : Multiset DelayTc) := by
  have h := percentile_frame exStF 50 1 (by decide)
  refine ⟨h.1, ?_, h.2.2⟩
  rw [h.2.1 0 (Or.inl (by omega))]
  rfl

/-- On a nonvoid range whose target index floors to the first position,
the percentile call returns the minimum delay of the range. -/
theorem percentile_min_branch (st : TSDState) (pc : ℚ) (b : Nat)
    (hwf : st.nd ≤ st.delays.length) (hb : b < st.nd)
    (hidx : (⌊pc * ((st.nd - b : Nat) : ℚ) / 100⌋).toNat = 0) :
    ∃ m ∈ slice st b, (percentile st pc b).value = (m.delay : ℚ) ∧
      ∀ s ∈ slice st b, m.delay ≤ s.delay := by
  have hcond : ¬ (st.nd = 0 ∨ st.nd ≤ b) := by omega
  have hlen : (slice st b).length = st.nd - b := slice_length st b hwf
  have hne : slice st b ≠ [] := by
    intro hnil
    rw [hnil] at hlen
    simp only [List.length_nil] at hlen
    omega
  obtain ⟨m, hm⟩ : ∃ m, min_element (slice st b) = some m := by
    cases hsl : slice st b with
    | nil => exact absurd hsl hne
    | cons x xs => exact ⟨_, rfl⟩
  obtain ⟨hmem, hall⟩ := min_element_spec _ _ hm
  refine ⟨m, hmem, ?_, hall⟩
  simp only [percentile]
  rw [if_neg hcond,
    if_pos (by omega : (⌊pc * ((st.nd - b : Nat) : ℚ) / 100⌋).toNat + b ≤ b), hm]
  rfl

/-- On a nonvoid range whose target index reaches the end, the
percentile call returns the maximum delay of the range. -/
theorem percentile_max_branch (st : TSDState) (pc : ℚ) (b : Nat)
    (hwf : st.nd ≤ st.delays.length) (hb : b < st.nd)
    (hidx : st.nd ≤ (⌊pc * ((st.nd - b : Nat) : ℚ) / 100⌋).toNat + b) :
    ∃ m ∈ slice st b, (percentile st pc b).value = (m.delay : ℚ) ∧
      ∀ s ∈ slice st b, s.delay ≤ m.delay := by
  have hcond : ¬ (st.nd = 0 ∨ st.nd ≤ b) := by omega
  have hlen : (slice st b).length = st.nd - b := slice_length st b hwf
  have hne : slice st b ≠ [] := by
    intro hnil
    rw [hnil] at hlen
    simp only [List.length_nil] at hlen
    omega
  obtain ⟨m, hm⟩ : ∃ m, max_element (slice st b) = some m := by
    cases hsl : slice st b with
    | nil => exact absurd hsl hne
    | cons x xs => exact ⟨_, rfl⟩
  obtain ⟨hmem, hall⟩ := max_element_spec _ _ hm
  refine ⟨m, hmem, ?_, hall⟩
  simp only [percentile]
  rw [if_neg hcond,
    if_neg (by omega : ¬ ((⌊pc * ((st.nd - b : Nat) : ℚ) / 100⌋).toNat + b ≤ b)),
    if_pos (by omega : st.nd ≤ (⌊pc * ((st.nd - b : Nat) : ℚ) / 100⌋).toNat + b), hm]
  rfl

/-- Claim C1: the percentile query returns 0 on an empty range; on a
range [begin, length) with target index
idx = begin + floor(p * (length - begin) / 100), it returns the minimum
delay of the range when idx is at most begin, the maximum when idx
reaches length, and otherwise the delay occupying position idx under a
full ascending sort of the range; in particular the 0th percentile from
index 0 is the minimum stored delay and the 100th is the maximum. -/
theorem percentile_selects (st : TSDState) (pc : ℚ) (b : Nat)
    (hwf : st.nd ≤ st.delays.length) (hp0 : 0 ≤ pc) (hp1 : pc ≤ 100) :
    (st.nd = 0 ∨ st.nd ≤ b → (percentile st pc b).value = 0) ∧
    (b < st.nd →
      ((b + (⌊pc * ((st.nd - b : Nat) : ℚ) / 100⌋).toNat ≤ b →
        ∃ m ∈ slice st b, (percentile st pc b).value = (m.delay : ℚ) ∧
          ∀ s ∈ slice st b, m.delay ≤ s.delay) ∧
      (st.nd ≤ b + (⌊pc * ((st.nd - b : Nat) : ℚ) / 100⌋).toNat →
        ∃ m ∈ slice st b, (percentile st pc b).value = (m.delay : ℚ) ∧
          ∀ s ∈ slice st b, s.delay ≤ m.delay) ∧
      (b < b + (⌊pc * ((st.nd - b : Nat) : ℚ) / 100⌋).toNat →
        b + (⌊pc * ((st.nd - b : Nat) : ℚ) / 100⌋).toNat < st.nd →
        (percentile st pc b).value =
          (((List.insertionSort (fun x y => x ≤ y)
              ((slice st b).map (fun s => s.delay))).get?
              ((⌊pc * ((st.nd - b : Nat) : ℚ) / 100⌋).toNat)).getD 0 : Nat)))) ∧
    (0 < st.nd →
      ((∃ m ∈ storeView st, (percentile st 0 0).value = (m.delay : ℚ) ∧
          ∀ s ∈ storeView st, m.delay ≤ s.delay) ∧
       (∃ m ∈ storeView st, (percentile st 100 0).value = (m.delay : ℚ) ∧
          ∀ s ∈ storeView st, s.delay ≤ m.delay))) := by
  refine ⟨?_, ?_, ?_⟩
  · intro h
    simp only [percentile]
    rw [if_pos h]
  · intro hb
    have hcond : ¬ (st.nd = 0 ∨ st.nd ≤ b) := by omega
    have hlen : (slice st b).length = st.nd - b := slice_length st b hwf
    refine ⟨?_, ?_, ?_⟩
    · intro hidx
      exact percentile_min_branch st pc b hwf hb (by omega)
    · intro hidx
      exact percentile_max_branch st pc b hwf hb (by omega)
    · intro hmid1 hmid2
      simp only [percentile]
      rw [if_neg hcond,
        if_neg (by omega : ¬ ((⌊pc * ((st.nd - b : Nat) : ℚ) / 100⌋).toNat + b ≤ b)),
        if_neg (by omega : ¬ (st.nd ≤ (⌊pc * ((st.nd - b : Nat) : ℚ) / 100⌋).toNat + b))]
      simp only [Nat.add_sub_cancel, nth_element_model]
      have hSlen : (List.insertionSort delayLe (slice st b)).length = st.nd - b := by
        rw [List.length_insertionSort, hlen]
      have ht : (⌊pc * ((st.nd - b : Nat) : ℚ) / 100⌋).toNat <
          (List.insertionSort delayLe (slice st b)).length := by
        rw [hSlen]; omega
      have hs := List.get?_eq_get ht
      rw [← map_delay_insertionSort, List.get?_map, hs]
      rfl
  · intro hnd
    have hsv : slice st 0 = storeView st := by
      simp [slice, storeView]
    constructor
    · have h00 : (⌊(0 : ℚ) * ((st.nd - 0 : Nat) : ℚ) / 100⌋).toNat = 0 := by
        simp
      have hres := percentile_min_branch st 0 0 hwf (by omega) h00
      rwa [hsv] at hres
    · have h100 : (⌊(100 : ℚ) * ((st.nd - 0 : Nat) : ℚ) / 100⌋).toNat = st.nd := by
        rw [Nat.sub_zero,
          mul_div_cancel_left₀ _ (by norm_num : (100 : ℚ) ≠ 0),
          Int.floor_natCast, Int.toNat_natCast]
      have hres := percentile_max_branch st 100 0 hwf (by omega) (by rw [h100]; omega)
      rwa [hsv] at hres

/-- Claim C1 witness: on the store [10, 30, 20] the 50th percentile from
index 0 targets index 1 and returns 20, the middle value of the
ascending sort. -/
theorem percentile_selects_witness : (percentile exSt3 50 0).value = 20 := by
  have h := (percentile_selects exSt3 50 0 (by decide) (by norm_num)
    (by norm_num)).2.1 (by decide)
  have hfl : (⌊(50 : ℚ) * ((exSt3.nd - 0 : Nat) : ℚ) / 100⌋).toNat = 1 := by
    show (⌊(50 : ℚ) * ((3 : Nat) : ℚ) / 100⌋).toNat = 1
    norm_num
  have hmid := h.2.2 (by rw [hfl]; decide) (by rw [hfl]; decide)
  rw [hfl] at hmid
  rw [hmid]
  rfl

end TimestampDiff
